import Mathlib

/-!
Verification development for the duplito repository.

Shallow embedding of:
* the persistent index (`config/config.go`: `DBManager` with `InsertRow`,
  `GetCountByFilesize`, `GetRecordsByHashAndFilesize`, `GetRecordByDirFilename`),
  modelled as a list of `FileRecord`s in insertion order (SQLite upsert keyed by
  (folder, filename); an update rewrites the row in place, an insert appends);
* the statistics counters (`counters/counters.go`);
* the fingerprinter (`utils`: `QuickHashGen`, `HashGen`, `CheckFile`);
* the indexing pipeline (`workflow`: `findFiles`, `fileWorker`, `collectResults`,
  `CalculateFileHashes`), with the collector's handling of one result modelled as
  `collectStep` and arbitrary worker-completion orders modelled by the
  `Reachable` relation.
-/

namespace Duplito

/-- Mirrors `config.FileRecord` (directory, filename, hash, filesize int64). -/
structure FileRecord where
  directory : String
  filename : String
  hash : String
  filesize : Int
deriving DecidableEq, Repr

/-- Mirrors the `hashLength = 36` constant of `config/config.go`. -/
def hashLength : Nat := 36

/-- The upsert key of a record: the (foldername, filename) pair.  In the SQL
schema the key is (folders_fk, filename) with foldername unique, which is in
bijection with (foldername, filename). -/
def keyR (r : FileRecord) : String × String := (r.directory, r.filename)

/-- Mirrors `DBManager.InsertRow`: reject an over-length hash, otherwise upsert
keyed by (folder, filename) with last write wins (`ON CONFLICT ... DO UPDATE`).
An update rewrites the matching row in place; an insert appends. -/
def InsertRow (idx : List FileRecord) (directory filename hash : String) (filesize : Int) :
    Except String (List FileRecord) :=
  if hash.length > hashLength then
    .error "hash value exceeds maximum length"
  else
    .ok (if idx.any (fun r => decide (keyR r = (directory, filename))) then
      idx.map (fun r =>
        if keyR r = (directory, filename) then ⟨directory, filename, hash, filesize⟩ else r)
    else idx ++ [⟨directory, filename, hash, filesize⟩])

/-- Mirrors `DBManager.GetCountByFilesize`: `SELECT COUNT(*) FROM files WHERE filesize = ?`. -/
def GetCountByFilesize (idx : List FileRecord) (filesize : Int) : Nat :=
  (idx.filter (fun r => decide (r.filesize = filesize))).length

/-- Mirrors `DBManager.GetRecordsByHashAndFilesize`:
`SELECT ... WHERE f.hash = ? AND f.filesize = ?`. -/
def GetRecordsByHashAndFilesize (idx : List FileRecord) (hash : String) (filesize : Int) :
    List FileRecord :=
  idx.filter (fun r => decide (r.hash = hash ∧ r.filesize = filesize))

/-- Mirrors `DBManager.GetRecordByDirFilename`: the first row matching the
(directory, filename) key, or `none` (`sql.ErrNoRows`). -/
def GetRecordByDirFilename (idx : List FileRecord) (directory filename : String) :
    Option FileRecord :=
  idx.find? (fun r => decide (keyR r = (directory, filename)))

/-! ## Statistics counters (`counters/counters.go`) -/

/-- Mirrors `counters.Stats` (all fields int64). -/
structure Stats where
  NumFiles : Int
  NumDupFiles : Int
  NumIgnoredFiles : Int
  SizeofFiles : Int
  SizeofDupFiles : Int
  SizeIgnoredFiles : Int
deriving DecidableEq, Repr

/-- The zero value of `Stats` (Go zero-initialised struct). -/
def statsInit : Stats := ⟨0, 0, 0, 0, 0, 0⟩

/-- Mirrors `Stats.AddUniqueFile`. -/
def AddUniqueFile (s : Stats) (size : Int) : Stats :=
  { s with NumFiles := s.NumFiles + 1, SizeofFiles := s.SizeofFiles + size }

/-- Mirrors `Stats.AddDupFile` (which first calls `AddUniqueFile`). -/
def AddDupFile (s : Stats) (size : Int) : Stats :=
  let s' := AddUniqueFile s size
  { s' with NumDupFiles := s'.NumDupFiles + 1, SizeofDupFiles := s'.SizeofDupFiles + size }

/-- Mirrors `Stats.AddIgnoredFile` (which first calls `AddUniqueFile`). -/
def AddIgnoredFile (s : Stats) (size : Int) : Stats :=
  let s' := AddUniqueFile s size
  { s' with NumIgnoredFiles := s'.NumIgnoredFiles + 1,
            SizeIgnoredFiles := s'.SizeIgnoredFiles + size }

/-- Mirrors `Stats.DupPerc` with exact rational arithmetic in place of `float32`
(the Go expression `100.0 * float32(NumDupFiles) / float32(NumFiles)`). -/
def DupPerc (s : Stats) : ℚ := 100 * (s.NumDupFiles : ℚ) / (s.NumFiles : ℚ)

/-- Mirrors `Stats.DupSizePerc` with exact rational arithmetic in place of
`float32` (the Go expression `100.0 * float32(SizeofDupFiles) / float32(SizeofFiles)`).
Total: a zero denominator yields a junk value instead of faulting, matching the
Go float division which yields NaN without faulting. -/
def DupSizePerc (s : Stats) : ℚ := 100 * (s.SizeofDupFiles : ℚ) / (s.SizeofFiles : ℚ)

/-- One call of the classifier into the counters: which of the three `Add...`
methods is invoked, with the byte size passed. -/
inductive StatsOp where
  | dup (size : Int)
  | uniq (size : Int)
  | ignored (size : Int)
deriving DecidableEq, Repr

/-- Apply one counter call. -/
def applyOp (s : Stats) : StatsOp → Stats
  | .dup n => AddDupFile s n
  | .uniq n => AddUniqueFile s n
  | .ignored n => AddIgnoredFile s n

/-- Apply a sequence of counter calls in order. -/
def applyOps (s : Stats) (ops : List StatsOp) : Stats := ops.foldl applyOp s

/-- Total bytes passed through `AddDupFile` calls. -/
def dupBytes : List StatsOp → Int
  | [] => 0
  | .dup n :: rest => n + dupBytes rest
  | .uniq _ :: rest => dupBytes rest
  | .ignored _ :: rest => dupBytes rest

/-- Total bytes passed through `AddIgnoredFile` calls. -/
def ignoredBytes : List StatsOp → Int
  | [] => 0
  | .dup _ :: rest => ignoredBytes rest
  | .uniq _ :: rest => ignoredBytes rest
  | .ignored n :: rest => n + ignoredBytes rest

/-- Total bytes passed through any of the three `Add...` calls. -/
def totalBytes : List StatsOp → Int
  | [] => 0
  | .dup n :: rest => n + totalBytes rest
  | .uniq n :: rest => n + totalBytes rest
  | .ignored n :: rest => n + totalBytes rest

/-! ## Fingerprinter (`utils`, src/unnamed/part_002) -/

/-- One hex digit, lower case (as produced by `encoding/hex` and `%x`). -/
def hexDigitChar (n : Nat) : Char := Char.ofNat (if n < 10 then 48 + n else 87 + n)

/-- Hex encoding of one byte value. -/
def hexByte (b : Nat) : List Char := [hexDigitChar (b / 16 % 16), hexDigitChar (b % 16)]

/-- Mirrors `hex.EncodeToString` on a byte sequence. -/
def hexEncode (bs : List Nat) : String := String.mk (bs.foldr (fun b acc => hexByte b ++ acc) [])

/-- Mirrors `utils.HashGen`: stream the entire content through the engine and
hex-encode the sum.  The hash engine is abstracted by its `sum` function from a
fed byte sequence to the digest bytes (the engine is `Reset` before use, so the
fed sequence fully determines the sum). -/
def HashGen (sum : List Nat → List Nat) (content : List Nat) : String :=
  hexEncode (sum content)

/-- Mirrors `utils.QuickHashGen` on a seekable reader.  `content` is the actual
byte content, `fileSize` the declared size passed by the caller.  Returns the
digest together with the number of `Seek` calls performed, or the error the code
returns.  `io.CopyN` reading fewer bytes than requested (EOF / unexpected EOF)
is not an error, as in the code; seeking to a negative position is. -/
def QuickHashGen (sum : List Nat → List Nat) (content : List Nat) (areasize fileSize : Int) :
    Except String (String × Nat) :=
  if areasize ≤ 0 then .error "invalid areasize"
  else
    let tinyfile : Bool := decide (10 * areasize ≥ fileSize)
    let readsize : Int := if tinyfile then fileSize else areasize / 2
    if fileSize ≠ 0 then
      let firstRead := content.take readsize.toNat
      if tinyfile then .ok (hexEncode (sum firstRead), 0)
      else
        if (content.length : Int) - readsize < 0 then .error "failed to seek"
        else
          let secondRead := (content.drop ((content.length : Int) - readsize).toNat).take
            readsize.toNat
          .ok (hexEncode (sum (firstRead ++ secondRead)), 1)
    else .ok (hexEncode (sum []), 0)

/-! ## Traversal file check (`utils.CheckFile`) -/

/-- Error outcome of a walk callback: `filepath.SkipDir` or a wrapped failure. -/
inductive WalkErr where
  | skipDir
  | failure (msg : String)
deriving DecidableEq, Repr

/-- The part of `os.FileInfo` that `CheckFile` inspects. -/
structure FileInfoM where
  modeSymlink : Bool
  modeRegular : Bool
  size : Int
deriving DecidableEq, Repr

/-- The part of `os.DirEntry` that `CheckFile` inspects; `info` models the
fallible `d.Info()` call. -/
structure DirEntryM where
  isDir : Bool
  info : Except String FileInfoM
deriving Repr

/-- Mirrors `filepath.Base` for absolute slash-separated paths. -/
def baseName (p : String) : String := (p.splitOn "/").getLastD p

/-- Mirrors `filepath.Dir` for absolute slash-separated paths. -/
def dirName (p : String) : String := String.intercalate "/" (p.splitOn "/").dropLast

/-- Mirrors `utils.CheckFile` (paths taken as already absolute): returns
(fileName, absolute folder, size, error).  An empty fileName means the entry is
skipped. -/
def CheckFile (path : String) (d : DirEntryM) (err : Option String) (recurse : Bool)
    (rootPath : String) : String × String × Int × Option WalkErr :=
  if ¬recurse ∧ d.isDir ∧ path ≠ rootPath then ("", "", 0, some .skipDir)
  else if d.isDir then ("", "", 0, none)
  else
    match err with
    | some e => ("", "", 0, some (.failure ("failed to access " ++ path ++ ": " ++ e)))
    | none =>
      match d.info with
      | .error e => ("", "", 0, some (.failure ("failed to get info for " ++ path ++ ": " ++ e)))
      | .ok info =>
        if info.modeSymlink then ("", "", 0, none)
        else if ¬info.modeRegular then ("", "", 0, some (.failure (path ++ " is not a regular file")))
        else (baseName path, dirName path, info.size, none)

/-- Mirrors the error handling of the walk callback in `workflow.findFiles`
(src/unnamed/part_004 lines 79-88): a non-SkipDir error is logged and returned,
but replaced by nil under the ignore-errors flag; a SkipDir result falls through
to the `fileName == ""` early return and is swallowed. -/
def findFilesCallbackErr (ignoreErrors : Bool) : Option WalkErr → Option WalkErr
  | none => none
  | some .skipDir => none
  | some (.failure m) => if ignoreErrors then none else some (.failure m)

/-! ## Indexing pipeline (`workflow`, src/unnamed/part_004) -/

/-- A regular file met by the traversal: output of `CheckFile` inside
`findFiles` (filename, absolute folder, size). -/
structure FileD where
  directory : String
  filename : String
  filesize : Int
deriving DecidableEq, Repr

/-- Mirrors `workflow.fileTask`. -/
structure fileTask where
  filename : String
  pathFolder : String
  filesize : Int
  realHash : Bool
  isUpdate : Bool
deriving DecidableEq, Repr

/-- Mirrors `workflow.fileResult` for a successfully processed task (`Err = nil`);
the `HashPair` is inlined as hash and filesize. -/
structure fileResult where
  filename : String
  pathFolder : String
  hash : String
  filesize : Int
  isUpdate : Bool
deriving DecidableEq, Repr

/-- The (folder, filename) key of a task. -/
def keyT (t : fileTask) : String × String := (t.pathFolder, t.filename)

/-- The (folder, filename) key of a traversed file. -/
def keyF (f : FileD) : String × String := (f.directory, f.filename)

/-- Mirrors the error-free path of `workflow.fileWorker` on one task: a task
with `RealHash = false` yields the placeholder digest `""`; otherwise the
worker hashes the file content.  `hashOf folder filename` abstracts the digest
(quick or full per the run's options) of the file's content. -/
def fileWorker (hashOf : String → String → String) (t : fileTask) : fileResult :=
  ⟨t.filename, t.pathFolder, if t.realHash then hashOf t.pathFolder t.filename else "",
    t.filesize, t.isUpdate⟩

/-- The loop body of `workflow.findFiles` over the traversed files, carrying the
`filesizeCount` map: the first file of a size gets `RealHash = false`, any
later one (`num >= 1`) gets `RealHash = true`; `IsUpdate` is always false. -/
def findFilesGo (cnt : Int → Nat) : List FileD → List fileTask
  | [] => []
  | f :: fs =>
    ⟨f.filename, f.directory, f.filesize, decide (1 ≤ cnt f.filesize), false⟩ ::
      findFilesGo (fun x => if x = f.filesize then cnt x + 1 else cnt x) fs

/-- Mirrors `workflow.findFiles`: the task sequence produced for the traversal
output `files`, starting from an empty `filesizeCount` map. -/
def findFiles (files : List FileD) : List fileTask := findFilesGo (fun _ => 0) files

/-- The promotion task built by `collectResults` from the placeholder record
`faulty`: `RealHash = true`, `IsUpdate = true`. -/
def promoteTask (r : FileRecord) : fileTask := ⟨r.filename, r.directory, r.filesize, true, true⟩

/-- Mirrors the body of `workflow.collectResults` for one successful result:
persist it with `InsertRow`, query the count by size, and when the count is
exactly 2 look up the placeholder records and re-enqueue `records[0]` as a
promotion task.  `none` models a collector fault: `os.Exit` on an insert error,
or the panic of the unguarded `records[0]` on an empty list. -/
def collectStep (idx : List FileRecord) (res : fileResult) :
    Option (List FileRecord × List fileTask) :=
  match InsertRow idx res.pathFolder res.filename res.hash res.filesize with
  | .error _ => none
  | .ok idx' =>
    if GetCountByFilesize idx' res.filesize = 2 then
      match GetRecordsByHashAndFilesize idx' "" res.filesize with
      | [] => none
      | faulty :: _ => some (idx', [promoteTask faulty])
    else some (idx', [])

/-- All states of the indexing pipeline over traversal output `files` starting
from index `init`: `pending` holds the not-yet-collected tasks (initially the
`findFiles` output), and one step lets the single-writer collector process the
worker result of any pending task — this quantifies over every order in which
worker results can arrive — appending any emitted promotion task to the pending
work.  Steps on which the collector faults have no successor. -/
inductive Reachable (hashOf : String → String → String) (files : List FileD)
    (init : List FileRecord) : List FileRecord → List fileTask → Prop where
  | start : Reachable hashOf files init init (findFiles files)
  | step {idx pending idx' emitted} (t : fileTask) :
      Reachable hashOf files init idx pending → t ∈ pending →
      collectStep idx (fileWorker hashOf t) = some (idx', emitted) →
      Reachable hashOf files init idx' (pending.erase t ++ emitted)

/-- One fixed schedule of the pipeline, used to exhibit concrete runs: tasks are
collected in queue order and emitted promotion tasks are appended at the back,
with fuel for termination.  Every `runTasks` trace is a chain of `Reachable`
steps. -/
def runTasks (hashOf : String → String → String) :
    Nat → List FileRecord → List fileTask → Option (List FileRecord)
  | 0, _, _ => none
  | _ + 1, idx, [] => some idx
  | n + 1, idx, t :: rest =>
    match collectStep idx (fileWorker hashOf t) with
    | none => none
    | some (idx', emitted) => runTasks hashOf n idx' (rest ++ emitted)

/-- Mirrors `workflow.CalculateFileHashes`: the worker-count guard runs before
any producer, worker or collector goroutine is started; with a positive count
the pipeline runs (here under the fixed `runTasks` schedule) and a collector
fault aborts the process. -/
def CalculateFileHashes (hashOf : String → String → String) (numThreads : Int)
    (files : List FileD) (idx : List FileRecord) : List FileRecord × Except String Unit :=
  if numThreads ≤ 0 then (idx, .error "number of threads must be greater than 0")
  else
    match runTasks hashOf (2 * files.length + 1) idx (findFiles files) with
    | some idx' => (idx', .ok ())
    | none => (idx, .error "collector fault")

/-! ## Duplicate classifier (`workflow.processSingleFolder` / `ListFiles`) -/

/-- Classification of one listed file by `processSingleFolder`, with the sibling
duplicate locations listed in the duplicate case. -/
inductive Classification where
  | zeroSize
  | notInDatabase
  | unique
  | duplicate (siblings : List FileRecord)
deriving DecidableEq, Repr

/-- The record `ListFiles` builds for a walked file before classification:
note `newFile.Hash = ""` (src/unnamed/part_004 line 445). -/
def listedFile (directory filename : String) (filesize : Int) : FileRecord :=
  ⟨directory, filename, "", filesize⟩

/-- Mirrors the classification logic of `processSingleFolder` for one walked
file `path`: zero size is ignored; a file without an index record is ignored;
otherwise the records matching `(path.Hash, path.Filesize)` are queried — with
`path.Hash` the hash field of the walked `FileRecord`, not of the fetched index
record — and the file is unique when exactly 1 is returned, else a duplicate
whose listed siblings are the returned records other than `path` itself. -/
def classifyFile (idx : List FileRecord) (path : FileRecord) : Classification :=
  if path.filesize = 0 then .zeroSize
  else
    match GetRecordByDirFilename idx path.directory path.filename with
    | none => .notInDatabase
    | some _ =>
      let withSameHash := GetRecordsByHashAndFilesize idx path.hash path.filesize
      if withSameHash.length = 1 then .unique
      else .duplicate (withSameHash.filter (fun r => decide (r ≠ path)))

/-! ## Shared concrete fixtures -/

/-- A content-hash oracle where every file hashes to `"h"` (identical contents). -/
def hConst : String → String → String := fun _ _ => "h"

/-- Two files of the same size in one folder. -/
def files2 : List FileD := [⟨"/d", "a", 5⟩, ⟨"/d", "b", 5⟩]

/-- Three files of the same size in one folder. -/
def files3 : List FileD := [⟨"/d", "a", 5⟩, ⟨"/d", "b", 5⟩, ⟨"/d", "c", 5⟩]

/-! ## Statistics lemmas -/

theorem applyOps_sizeofDupFiles (ops : List StatsOp) :
    ∀ s : Stats, (applyOps s ops).SizeofDupFiles = s.SizeofDupFiles + dupBytes ops := by
  induction ops with
  | nil => intro s; simp [applyOps, dupBytes]
  | cons op rest ih =>
    intro s
    have hstep : applyOps s (op :: rest) = applyOps (applyOp s op) rest := rfl
    rw [hstep, ih]
    cases op <;> (simp [applyOp, dupBytes, AddDupFile, AddUniqueFile, AddIgnoredFile]; try ring)

theorem applyOps_sizeofFiles (ops : List StatsOp) :
    ∀ s : Stats, (applyOps s ops).SizeofFiles = s.SizeofFiles + totalBytes ops := by
  induction ops with
  | nil => intro s; simp [applyOps, totalBytes]
  | cons op rest ih =>
    intro s
    have hstep : applyOps s (op :: rest) = applyOps (applyOp s op) rest := rfl
    rw [hstep, ih]
    cases op <;> (simp [applyOp, totalBytes, AddDupFile, AddUniqueFile, AddIgnoredFile]; try ring)

/-- C8, corrected: `AddIgnoredFile` also calls `AddUniqueFile`, so `SizeofFiles`
accumulates the bytes of every counted file, ignored files included.  The
duplicate-byte percentage therefore equals 100 × duplicate bytes / total
counted bytes (ignored bytes in the denominator), and it is evaluated by a
total function — no fault at a zero denominator. -/
theorem c8_dup_size_perc (ops : List StatsOp) :
    DupSizePerc (applyOps statsInit ops) = 100 * (dupBytes ops : ℚ) / (totalBytes ops : ℚ) := by
  simp [DupSizePerc, applyOps_sizeofDupFiles, applyOps_sizeofFiles, statsInit]

/-- C8 counterexample: with two duplicate files of 10 bytes and one ignored
file of 10 bytes, the code computes 100·20/30 = 200/3, while the claimed
formula over non-ignored bytes gives 100·20/20 = 100. -/
theorem c8_dup_size_perc_counterexample :
    DupSizePerc (applyOps statsInit [.dup 10, .dup 10, .ignored 10]) ≠
      100 * (dupBytes [StatsOp.dup 10, .dup 10, .ignored 10] : ℚ) /
        ((totalBytes [StatsOp.dup 10, .dup 10, .ignored 10] : ℚ) -
          (ignoredBytes [StatsOp.dup 10, .dup 10, .ignored 10] : ℚ)) := by
  norm_num [DupSizePerc, applyOps, applyOp, AddDupFile, AddUniqueFile, AddIgnoredFile,
    statsInit, dupBytes, totalBytes, ignoredBytes]

/-! ## Store round trip (C9) -/

/-- C9, confirmed: after a successful upsert the query by the inserted (hash,
size) pair returns a list containing the inserted record. -/
theorem c9_round_trip (idx : List FileRecord) (folder filename h : String) (s : Int)
    (hlen : h.length ≤ hashLength) :
    ∃ idx', InsertRow idx folder filename h s = .ok idx' ∧
      (⟨folder, filename, h, s⟩ : FileRecord) ∈ GetRecordsByHashAndFilesize idx' h s := by
  have hgt : ¬ h.length > hashLength := by omega
  rw [InsertRow, if_neg hgt]
  refine ⟨_, rfl, ?_⟩
  have hmem : (⟨folder, filename, h, s⟩ : FileRecord) ∈
      (if idx.any (fun r => decide (keyR r = (folder, filename))) then
        idx.map (fun r =>
          if keyR r = (folder, filename) then ⟨folder, filename, h, s⟩ else r)
      else idx ++ [⟨folder, filename, h, s⟩]) := by
    by_cases hany : idx.any (fun r => decide (keyR r = (folder, filename))) = true
    · rw [if_pos hany]
      obtain ⟨a, ha, hpa⟩ := List.any_eq_true.mp hany
      exact List.mem_map.mpr ⟨a, ha, by rw [if_pos (of_decide_eq_true hpa)]⟩
    · rw [if_neg hany]
      exact List.mem_append_right _ (List.mem_singleton.mpr rfl)
  exact List.mem_filter.mpr ⟨hmem, by simp⟩

/-- Witness for C9 at a concrete store and record. -/
theorem c9_round_trip_witness :
    "abc".length ≤ hashLength ∧
      ∃ idx', InsertRow [] "/d" "f" "abc" 5 = .ok idx' ∧
        (⟨"/d", "f", "abc", 5⟩ : FileRecord) ∈ GetRecordsByHashAndFilesize idx' "abc" 5 :=
  ⟨by decide, c9_round_trip [] "/d" "f" "abc" 5 (by decide)⟩

/-! ## Configuration guard (C10) -/

/-- C10, confirmed: a non-positive worker count makes `CalculateFileHashes`
return the configuration error before the pipeline runs, leaving the index
unchanged. -/
theorem c10_nonpositive_threads (hashOf : String → String → String) (numThreads : Int)
    (files : List FileD) (idx : List FileRecord) (hn : numThreads ≤ 0) :
    CalculateFileHashes hashOf numThreads files idx =
      (idx, .error "number of threads must be greater than 0") := by
  rw [CalculateFileHashes, if_pos hn]

/-- Witness for C10 with zero threads on a concrete tree and store. -/
theorem c10_nonpositive_threads_witness :
    (0 : Int) ≤ 0 ∧
      CalculateFileHashes hConst 0 files2 [⟨"/x", "y", "k", 9⟩] =
        ([⟨"/x", "y", "k", 9⟩], .error "number of threads must be greater than 0") :=
  ⟨le_refl 0, c10_nonpositive_threads hConst 0 files2 [⟨"/x", "y", "k", 9⟩] (by decide)⟩

/-! ## Quick hash (C5) -/

/-- C5, confirmed: with window `W > 0` and content of the declared size `S`,
the quick hash digests the whole content with no seek when `10·W ≥ S`, and
otherwise digests exactly the first `W/2` bytes followed by the last `W/2`
bytes after one seek; in both cases the digest is the hex encoding of the
engine's sum.  The last conjunct shows the end-of-file condition (content
shorter than the declared size in the whole-file pass) is not an error. -/
theorem c5_quick_hash (sum : List Nat → List Nat) (content : List Nat) (W S : Int)
    (hW : 0 < W) (hL : (content.length : Int) = S) :
    (S ≤ 10 * W → QuickHashGen sum content W S = .ok (hexEncode (sum content), 0)) ∧
    (10 * W < S →
      QuickHashGen sum content W S =
        .ok (hexEncode (sum (content.take (W / 2).toNat ++
          content.drop (content.length - (W / 2).toNat))), 1)) ∧
    (∀ short : List Nat, (short.length : Int) ≤ S → S ≤ 10 * W →
      ∃ d, QuickHashGen sum short W S = .ok (d, 0)) := by
  have hWnle : ¬ W ≤ 0 := by omega
  refine ⟨?_, ?_, ?_⟩
  · intro hS
    rw [QuickHashGen, if_neg hWnle]
    have ht : decide (10 * W ≥ S) = true := decide_eq_true (by omega)
    by_cases hS0 : S = 0
    · subst hS0
      simp only [ht, if_true]
      rw [if_neg (by omega : ¬ (0 : Int) ≠ 0)]
      have hnil : content = [] := by
        cases content with
        | nil => rfl
        | cons a l => simp at hL; omega
      rw [hnil]
    · simp only [ht, if_true]
      rw [if_pos hS0]
      have htake : content.take S.toNat = content :=
        List.take_of_length_le (by omega)
      rw [htake]
  · intro hS
    rw [QuickHashGen, if_neg hWnle]
    have hf : decide (10 * W ≥ S) = false := decide_eq_false (by omega)
    simp only [hf, Bool.false_eq_true, if_false]
    rw [if_pos (by omega : S ≠ 0)]
    have hr0 : 0 ≤ W / 2 := by omega
    have hrS : W / 2 ≤ S := by omega
    rw [if_neg (by omega : ¬ (content.length : Int) - W / 2 < 0)]
    have hidx : ((content.length : Int) - W / 2).toNat = content.length - (W / 2).toNat := by
      omega
    rw [hidx]
    have hdlen : (content.drop (content.length - (W / 2).toNat)).length = (W / 2).toNat := by
      rw [List.length_drop]
      omega
    rw [List.take_of_length_le (le_of_eq hdlen)]
  · intro short hshort hS
    rw [QuickHashGen, if_neg hWnle]
    have ht : decide (10 * W ≥ S) = true := decide_eq_true (by omega)
    by_cases hS0 : S = 0
    · subst hS0
      simp only [ht, if_true]
      rw [if_neg (by omega : ¬ (0 : Int) ≠ 0)]
      exact ⟨_, rfl⟩
    · simp only [ht, if_true]
      rw [if_pos hS0]
      exact ⟨_, rfl⟩

/-- Witness for C5 on concrete inputs: a 3-byte content with a 2-byte window
(whole-content pass) and a 30-byte content with a 2-byte window (head and tail
of one byte each, one seek). -/
theorem c5_quick_hash_witness :
    (0 : Int) < 2 ∧ (([1, 2, 3] : List Nat).length : Int) = 3 ∧
      QuickHashGen (fun l => l) [1, 2, 3] 2 3 = .ok (hexEncode [1, 2, 3], 0) ∧
      ((List.range 30).length : Int) = 30 ∧
      QuickHashGen (fun l => l) (List.range 30) 2 30 =
        .ok (hexEncode ((List.range 30).take 1 ++ (List.range 30).drop 29), 1) :=
  ⟨by decide, by decide,
    (c5_quick_hash (fun l => l) [1, 2, 3] 2 3 (by decide) (by decide)).1 (by decide),
    by simp,
    (c5_quick_hash (fun l => l) (List.range 30) 2 30 (by decide) (by simp)).2.1 (by decide)⟩

/-! ## Traversal skipping (C7) -/

/-- C7 counterexample: a non-regular, non-symlink entry (for example a FIFO) is
not silently skipped — `CheckFile` returns an error for it. -/
theorem c7_nonregular_errors :
    (CheckFile "/r/f" ⟨false, .ok ⟨false, false, 7⟩⟩ none true "/r").2.2.2 =
      some (.failure "/r/f is not a regular file") := by
  decide

/-- C7, amended: symlinks are silently skipped (no task, no error) under every
policy, but a non-regular non-symlink file yields an error from `CheckFile`;
`findFiles` logs and suppresses it under ignore-errors (the entry is skipped
and the walk continues) and propagates it otherwise (the walk stops). -/
theorem c7_symlink_nonregular (path : String) (d : DirEntryM) (err : Option String)
    (recurse : Bool) (rootPath : String) (info : FileInfoM) (hdir : d.isDir = false)
    (herr : err = none) (hinfo : d.info = .ok info) :
    (info.modeSymlink = true → CheckFile path d err recurse rootPath = ("", "", 0, none)) ∧
    (info.modeSymlink = false → info.modeRegular = false →
      CheckFile path d err recurse rootPath =
        ("", "", 0, some (.failure (path ++ " is not a regular file"))) ∧
      findFilesCallbackErr true (some (.failure (path ++ " is not a regular file"))) = none ∧
      findFilesCallbackErr false (some (.failure (path ++ " is not a regular file"))) =
        some (.failure (path ++ " is not a regular file"))) := by
  subst herr
  constructor
  · intro hsym
    rw [CheckFile, if_neg (by simp [hdir]), if_neg (by simp [hdir])]
    simp [hinfo, hsym]
  · intro hsym hreg
    refine ⟨?_, rfl, rfl⟩
    rw [CheckFile, if_neg (by simp [hdir]), if_neg (by simp [hdir])]
    simp [hinfo, hsym, hreg]

/-- Witness for C7's amended statement at concrete symlink and FIFO entries. -/
theorem c7_symlink_nonregular_witness :
    CheckFile "/r/s" ⟨false, .ok ⟨true, false, 3⟩⟩ none true "/r" = ("", "", 0, none) ∧
      CheckFile "/r/p" ⟨false, .ok ⟨false, false, 3⟩⟩ none false "/r" =
        ("", "", 0, some (.failure "/r/p is not a regular file")) :=
  ⟨(c7_symlink_nonregular "/r/s" ⟨false, .ok ⟨true, false, 3⟩⟩ none true "/r"
      ⟨true, false, 3⟩ rfl rfl rfl).1 rfl,
    ((c7_symlink_nonregular "/r/p" ⟨false, .ok ⟨false, false, 3⟩⟩ none false "/r"
      ⟨false, false, 3⟩ rfl rfl rfl).2 rfl rfl).1⟩

/-! ## Classifier divergence (C3) -/

/-- The index backing the C3 failing input: two files of the same size with
different (already promoted) content hashes. -/
def c3Idx : List FileRecord := [⟨"/d", "a", "h1", 5⟩, ⟨"/d", "b", "h2", 5⟩]

/-- C3, code bug: `ListFiles` builds the walked record with `Hash = ""` and
`processSingleFolder` queries `GetRecordsByHashAndFilesize(path.Hash, ...)` on
that walked record instead of the fetched index record's hash.  For an indexed
non-zero-size file whose record's (hash, size) query returns exactly 1 record
— which the claim classifies "unique" — the code queries `("", 5)`, gets 0
records, and classifies the file "duplicate" with no siblings. -/
theorem c3_classifier_wrong_hash :
    GetRecordByDirFilename c3Idx "/d" "a" = some ⟨"/d", "a", "h1", 5⟩ ∧
      (GetRecordsByHashAndFilesize c3Idx "h1" 5).length = 1 ∧
      classifyFile c3Idx (listedFile "/d" "a" 5) = .duplicate [] := by
  decide

/-! ## Collector step characterisation (C1) -/

/-- C1, amended: after the collector persists ANY successful result — real-hash,
placeholder or promotion alike — it emits a promotion task exactly when the
count-by-size query on the updated index returns 2; the task re-enqueues the
first record of the placeholder query on the post-insert index (so strictly
after the triggering result is persisted), with `RealHash` and `IsUpdate` set. -/
theorem c1_promotion_step (idx idx' : List FileRecord) (res : fileResult)
    (emitted : List fileTask) (h : collectStep idx res = some (idx', emitted)) :
    InsertRow idx res.pathFolder res.filename res.hash res.filesize = .ok idx' ∧
    (GetCountByFilesize idx' res.filesize ≠ 2 → emitted = []) ∧
    (GetCountByFilesize idx' res.filesize = 2 →
      ∃ faulty rest, GetRecordsByHashAndFilesize idx' "" res.filesize = faulty :: rest ∧
        emitted = [promoteTask faulty] ∧ faulty.hash = "" ∧
        faulty.filesize = res.filesize ∧
        (promoteTask faulty).realHash = true ∧ (promoteTask faulty).isUpdate = true) := by
  rw [collectStep] at h
  split at h
  · exact absurd h (by simp)
  · rename_i j hins
    split at h
    · rename_i hc
      split at h
      · exact absurd h (by simp)
      · rename_i faulty rest hrec
        simp only [Option.some.injEq, Prod.mk.injEq] at h
        obtain ⟨rfl, rfl⟩ := h
        refine ⟨hins, fun hne => absurd hc hne,
          fun _ => ⟨faulty, rest, hrec, rfl, ?_, ?_, rfl, rfl⟩⟩
        · have hmem : faulty ∈ GetRecordsByHashAndFilesize j "" res.filesize := by
            rw [hrec]; exact List.mem_cons_self _ _
          exact (of_decide_eq_true (List.mem_filter.mp hmem).2).1
        · have hmem : faulty ∈ GetRecordsByHashAndFilesize j "" res.filesize := by
            rw [hrec]; exact List.mem_cons_self _ _
          exact (of_decide_eq_true (List.mem_filter.mp hmem).2).2
    · rename_i hc
      simp only [Option.some.injEq, Prod.mk.injEq] at h
      obtain ⟨rfl, rfl⟩ := h
      exact ⟨hins, fun _ => rfl, fun hcc => absurd hcc hc⟩

/-- Witness for C1's amended statement: a concrete collector step that persists
a real-hash result, finds the count at 2 and promotes the placeholder record. -/
theorem c1_promotion_step_witness :
    collectStep [⟨"/d", "a", "", 5⟩] (fileWorker hConst ⟨"b", "/d", 5, true, false⟩) =
      some ([⟨"/d", "a", "", 5⟩, ⟨"/d", "b", "h", 5⟩], [⟨"a", "/d", 5, true, true⟩]) ∧
    ∃ faulty rest,
      GetRecordsByHashAndFilesize [⟨"/d", "a", "", 5⟩, ⟨"/d", "b", "h", 5⟩] "" 5 =
        faulty :: rest ∧
      ([⟨"a", "/d", 5, true, true⟩] : List fileTask) = [promoteTask faulty] ∧
      faulty.hash = "" ∧ faulty.filesize = 5 := by
  refine ⟨by decide, ?_⟩
  have h := c1_promotion_step [⟨"/d", "a", "", 5⟩] [⟨"/d", "a", "", 5⟩, ⟨"/d", "b", "h", 5⟩]
    (fileWorker hConst ⟨"b", "/d", 5, true, false⟩) [⟨"a", "/d", 5, true, true⟩] (by decide)
  obtain ⟨faulty, rest, h1, h2, h3, h4, -, -⟩ := h.2.2 (by decide)
  exact ⟨faulty, rest, h1, h2 ▸ rfl, h3, h4⟩

/-- C1 counterexample: a reachable pipeline state in which collecting a
PLACEHOLDER result (digest `""`, not a real-hash result) makes the size count
reach 2 and the collector emits a promotion task — a situation the claim
excludes.  The run: two same-size files, the second file's real-hash result
arrives first, then the first file's placeholder result. -/
theorem c1_placeholder_result_promotes :
    Reachable hConst files2 [] [⟨"/d", "b", "h", 5⟩] [⟨"a", "/d", 5, false, false⟩] ∧
    (fileWorker hConst ⟨"a", "/d", 5, false, false⟩).hash = "" ∧
    collectStep [⟨"/d", "b", "h", 5⟩] (fileWorker hConst ⟨"a", "/d", 5, false, false⟩) =
      some ([⟨"/d", "b", "h", 5⟩, ⟨"/d", "a", "", 5⟩], [⟨"a", "/d", 5, true, true⟩]) := by
  refine ⟨?_, rfl, by decide⟩
  have h := @Reachable.step hConst files2 [] [] (findFiles files2) [⟨"/d", "b", "h", 5⟩] []
    ⟨"b", "/d", 5, true, false⟩ Reachable.start (by decide) (by decide)
  have hp : (findFiles files2).erase ⟨"b", "/d", 5, true, false⟩ ++ ([] : List fileTask) =
      [⟨"a", "/d", 5, false, false⟩] := by decide
  rw [hp] at h
  exact h

/-! ## Promotion-result panic (C6) -/

/-- C6, code bug: with exactly two files of one size collected in traversal
order, the promotion result for the first file arrives when the size count is
still exactly 2, and after persisting it the placeholder query is empty — the
unguarded `records[0]` faults.  The first conjunct shows the faulting state is
reachable; the second exhibits the count-2/empty-list combination after the
successful insert; the third is the collector fault itself. -/
theorem c6_promotion_result_faults :
    Reachable hConst files2 [] [⟨"/d", "a", "", 5⟩, ⟨"/d", "b", "h", 5⟩]
      [⟨"a", "/d", 5, true, true⟩] ∧
    (∃ idx', InsertRow [⟨"/d", "a", "", 5⟩, ⟨"/d", "b", "h", 5⟩] "/d" "a" "h" 5 = .ok idx' ∧
      GetCountByFilesize idx' 5 = 2 ∧ GetRecordsByHashAndFilesize idx' "" 5 = []) ∧
    collectStep [⟨"/d", "a", "", 5⟩, ⟨"/d", "b", "h", 5⟩]
      (fileWorker hConst ⟨"a", "/d", 5, true, true⟩) = none := by
  refine ⟨?_, ⟨[⟨"/d", "a", "h", 5⟩, ⟨"/d", "b", "h", 5⟩], rfl, by decide, by decide⟩,
    by decide⟩
  have h1 := @Reachable.step hConst files2 [] [] (findFiles files2) [⟨"/d", "a", "", 5⟩] []
    ⟨"a", "/d", 5, false, false⟩ Reachable.start (by decide) (by decide)
  have hp1 : (findFiles files2).erase ⟨"a", "/d", 5, false, false⟩ ++ ([] : List fileTask) =
      [⟨"b", "/d", 5, true, false⟩] := by decide
  rw [hp1] at h1
  have h2 := @Reachable.step hConst files2 [] [⟨"/d", "a", "", 5⟩]
    [⟨"b", "/d", 5, true, false⟩] [⟨"/d", "a", "", 5⟩, ⟨"/d", "b", "h", 5⟩]
    [⟨"a", "/d", 5, true, true⟩]
    ⟨"b", "/d", 5, true, false⟩ h1 (by decide) (by decide)
  have hp2 : ([⟨"b", "/d", 5, true, false⟩] : List fileTask).erase ⟨"b", "/d", 5, true, false⟩ ++
      [⟨"a", "/d", 5, true, true⟩] = [⟨"a", "/d", 5, true, true⟩] := by decide
  rw [hp2] at h2
  exact h2

/-! ## Re-indexing non-idempotence (C4) -/

/-- Every completed `runTasks` trace is a chain of `Reachable` steps ending
with an empty pending queue. -/
theorem reachable_of_runTasks (hashOf : String → String → String) (files : List FileD)
    (init : List FileRecord) :
    ∀ (fuel : Nat) (idx : List FileRecord) (pending : List fileTask)
      (idx' : List FileRecord),
      Reachable hashOf files init idx pending →
      runTasks hashOf fuel idx pending = some idx' →
      Reachable hashOf files init idx' [] := by
  intro fuel
  induction fuel with
  | zero => intro idx pending idx' _ hrun; exact absurd hrun (by simp [runTasks])
  | succ n ih =>
    intro idx pending idx' hreach hrun
    cases pending with
    | nil =>
      have : idx = idx' := by
        simpa [runTasks] using hrun
      exact this ▸ hreach
    | cons t rest =>
      rw [runTasks] at hrun
      cases hstep : collectStep idx (fileWorker hashOf t) with
      | none => rw [hstep] at hrun; exact absurd hrun (by simp)
      | some p =>
        rw [hstep] at hrun
        have hnext := @Reachable.step hashOf files init idx (t :: rest) p.1 p.2
          t hreach (List.mem_cons_self t rest) hstep
        have herase : (t :: rest).erase t = rest := List.erase_cons_head t rest
        rw [herase] at hnext
        exact ih p.1 (rest ++ p.2) idx' hnext hrun

/-- C4, code bug: over an unchanged tree of three same-size files, a first
completed pipeline run from an empty index ends with real digests for all
three records, but a second completed run over the same tree resets the
first-traversed file's digest to the placeholder `""` — the (folder, filename)
→ (size, digest) mappings differ between the two runs. -/
theorem c4_reindex_changes_index :
    Reachable hConst files3 []
      [⟨"/d", "a", "h", 5⟩, ⟨"/d", "b", "h", 5⟩, ⟨"/d", "c", "h", 5⟩] [] ∧
    Reachable hConst files3 [⟨"/d", "a", "h", 5⟩, ⟨"/d", "b", "h", 5⟩, ⟨"/d", "c", "h", 5⟩]
      [⟨"/d", "a", "", 5⟩, ⟨"/d", "b", "h", 5⟩, ⟨"/d", "c", "h", 5⟩] [] ∧
    GetRecordByDirFilename
        [⟨"/d", "a", "h", 5⟩, ⟨"/d", "b", "h", 5⟩, ⟨"/d", "c", "h", 5⟩] "/d" "a" ≠
      GetRecordByDirFilename
        [⟨"/d", "a", "", 5⟩, ⟨"/d", "b", "h", 5⟩, ⟨"/d", "c", "h", 5⟩] "/d" "a" := by
  refine ⟨?_, ?_, by decide⟩
  · exact reachable_of_runTasks hConst files3 [] 10 [] (findFiles files3) _
      Reachable.start (by decide)
  · exact reachable_of_runTasks hConst files3
      [⟨"/d", "a", "h", 5⟩, ⟨"/d", "b", "h", 5⟩, ⟨"/d", "c", "h", 5⟩] 10
      [⟨"/d", "a", "h", 5⟩, ⟨"/d", "b", "h", 5⟩, ⟨"/d", "c", "h", 5⟩]
      (findFiles files3) _ Reachable.start (by decide)

/-! ## Placeholder invariants of the pipeline (C2): infrastructure -/

/-- The first file of size `s` in traversal order. -/
def firstOfSize (files : List FileD) (s : Int) : Option FileD :=
  files.find? (fun f => decide (f.filesize = s))

theorem findFilesGo_map_keyT :
    ∀ (suffix : List FileD) (cnt : Int → Nat), (findFilesGo cnt suffix).map keyT = suffix.map keyF := by
  intro suffix
  induction suffix with
  | nil => intro cnt; rfl
  | cons f fs ih => intro cnt; simp [findFilesGo, keyT, keyF, ih]

theorem findFilesGo_isUpdate :
    ∀ (suffix : List FileD) (cnt : Int → Nat), ∀ t ∈ findFilesGo cnt suffix, t.isUpdate = false := by
  intro suffix
  induction suffix with
  | nil => intro cnt t ht; exact absurd ht (by simp [findFilesGo])
  | cons f fs ih =>
    intro cnt t ht
    rw [findFilesGo] at ht
    rcases List.mem_cons.mp ht with h | h
    · rw [h]
    · exact ih _ t h

theorem findFilesGo_mem (files : List FileD) :
    ∀ (suffix pre : List FileD) (cnt : Int → Nat),
      files = pre ++ suffix →
      (∀ x : Int, cnt x = 0 ↔ pre.filter (fun f => decide (f.filesize = x)) = []) →
      ∀ t ∈ findFilesGo cnt suffix,
        ∃ f ∈ suffix, keyT t = keyF f ∧ t.filesize = f.filesize ∧
          (t.realHash = false → firstOfSize files t.filesize = some f) := by
  intro suffix
  induction suffix with
  | nil => intro pre cnt _ _ t ht; exact absurd ht (by simp [findFilesGo])
  | cons f fs ih =>
    intro pre cnt hsplit hcnt t ht
    rw [findFilesGo] at ht
    rcases List.mem_cons.mp ht with h | h
    · refine ⟨f, List.mem_cons_self f fs, by rw [h]; rfl, by rw [h], ?_⟩
      intro hreal
      rw [h] at hreal
      simp only [decide_eq_false_iff_not, not_le] at hreal
      have hzero : cnt f.filesize = 0 := by omega
      have hpre : pre.filter (fun g => decide (g.filesize = f.filesize)) = [] :=
        (hcnt f.filesize).mp hzero
      have hnone : pre.find? (fun g => decide (g.filesize = f.filesize)) = none :=
        List.find?_eq_none.mpr (List.filter_eq_nil_iff.mp hpre)
      rw [h]
      show firstOfSize files f.filesize = some f
      rw [firstOfSize, hsplit, List.find?_append, hnone, Option.none_or,
        List.find?_cons_of_pos _ (by simp)]
    · have hcnt' : ∀ x : Int,
          (if x = f.filesize then cnt x + 1 else cnt x) = 0 ↔
            (pre ++ [f]).filter (fun g => decide (g.filesize = x)) = [] := by
        intro x
        by_cases hx : x = f.filesize
        · constructor
          · intro habs
            rw [if_pos hx] at habs
            exact absurd habs (by omega)
          · intro habs
            rw [List.filter_append] at habs
            have hfmem : f ∈ pre.filter (fun g => decide (g.filesize = x)) ++
                List.filter (fun g => decide (g.filesize = x)) [f] := by
              refine List.mem_append_right _ ?_
              simp [hx]
            rw [habs] at hfmem
            exact absurd hfmem (by simp)
        · rw [if_neg hx, List.filter_append]
          have hnil : List.filter (fun g => decide (g.filesize = x)) [f] = [] := by
            simp
            omega
          rw [hnil, List.append_nil]
          exact hcnt x
      obtain ⟨g, hg, h1, h2, h3⟩ :=
        ih (pre ++ [f]) _ (by rw [hsplit, List.append_assoc]; rfl) hcnt' t h
      exact ⟨g, List.mem_cons_of_mem f hg, h1, h2, h3⟩

theorem findFiles_mem (files : List FileD) (t : fileTask) (ht : t ∈ findFiles files) :
    t.isUpdate = false ∧
      ∃ f ∈ files, keyT t = keyF f ∧ t.filesize = f.filesize ∧
        (t.realHash = false → firstOfSize files t.filesize = some f) := by
  refine ⟨findFilesGo_isUpdate files _ t ht, ?_⟩
  exact findFilesGo_mem files files [] _ rfl (by intro x; simp) t ht

theorem findFiles_map_keyT (files : List FileD) :
    (findFiles files).map keyT = files.map keyF :=
  findFilesGo_map_keyT files _

/-- A list with two distinct members has length at least 2. -/
theorem two_mem_le_length {α : Type} (l : List α) (a b : α) (ha : a ∈ l) (hb : b ∈ l)
    (hne : a ≠ b) : 2 ≤ l.length := by
  induction l with
  | nil => exact absurd ha (by simp)
  | cons c rest ih =>
    rcases List.mem_cons.mp ha with h1 | h1
    · rcases List.mem_cons.mp hb with h2 | h2
      · exact absurd (h1.trans h2.symm) hne
      · have := List.length_pos_of_mem h2
        simp only [List.length_cons]
        omega
    · have := List.length_pos_of_mem h1
      simp only [List.length_cons]
      omega

/-- A duplicate-free list whose members are all equal has at most one member. -/
theorem length_le_one_of_nodup_const {α : Type} (l : List α) (k : α) (hnd : l.Nodup)
    (hall : ∀ x ∈ l, x = k) : l.length ≤ 1 := by
  cases l with
  | nil => simp
  | cons a rest =>
    cases rest with
    | nil => simp
    | cons b rest2 =>
      exfalso
      have hab : a = b := by
        rw [hall a (by simp), hall b (by simp)]
      have hnm := (List.nodup_cons.mp hnd).1
      rw [hab] at hnm
      exact hnm (by simp)

/-- An occurrence consumed by `erase` is gone when the element occurs at most
once: concretely, if promos (or initial tasks) of a kind are unique in
`pending`, the erased task is no longer present. -/
theorem not_mem_erase_of_count_le_one {α : Type} [DecidableEq α] (l : List α) (a : α)
    (hcount : l.count a ≤ 1) : a ∉ l.erase a := by
  intro hmem
  have h1 : 0 < (l.erase a).count a := List.count_pos_iff.mpr hmem
  have h2 := List.count_erase_self a l
  omega

theorem GetCountByFilesize_append (idx : List FileRecord) (r : FileRecord) (s : Int) :
    GetCountByFilesize (idx ++ [r]) s =
      GetCountByFilesize idx s + (if r.filesize = s then 1 else 0) := by
  rw [GetCountByFilesize, GetCountByFilesize, List.filter_append, List.length_append]
  by_cases h : r.filesize = s
  · simp [h]
  · simp [h]

theorem GetCountByFilesize_map_size_eq (idx : List FileRecord) (g : FileRecord → FileRecord)
    (hg : ∀ r ∈ idx, (g r).filesize = r.filesize) (s : Int) :
    GetCountByFilesize (idx.map g) s = GetCountByFilesize idx s := by
  induction idx with
  | nil => rfl
  | cons r rest ih =>
    have hr := hg r (by simp)
    have hrest := ih (fun r' h => hg r' (by simp [h]))
    rw [GetCountByFilesize, GetCountByFilesize] at hrest ⊢
    rw [List.map_cons, List.filter_cons, List.filter_cons, hr]
    by_cases hs : r.filesize = s
    · rw [decide_eq_true hs]
      simp only [if_true, List.length_cons]
      omega
    · rw [decide_eq_false hs]
      simpa using hrest

theorem GetRecords_mem (idx : List FileRecord) (h : String) (s : Int) (r : FileRecord) :
    r ∈ GetRecordsByHashAndFilesize idx h s ↔ r ∈ idx ∧ r.hash = h ∧ r.filesize = s := by
  rw [GetRecordsByHashAndFilesize]
  constructor
  · intro hm
    obtain ⟨h1, h2⟩ := List.mem_filter.mp hm
    exact ⟨h1, of_decide_eq_true h2⟩
  · intro ⟨h1, h2⟩
    exact List.mem_filter.mpr ⟨h1, decide_eq_true h2⟩

/-- Elimination form of a successful collector step: the result's hash passed
the length guard, the new index is the upsert of the result, and either the
size count reached exactly 2 and the head of the placeholder query was emitted
as a promotion task, or the count is not 2 and nothing was emitted. -/
theorem collectStep_elim (idx idx' : List FileRecord) (res : fileResult)
    (emitted : List fileTask) (h : collectStep idx res = some (idx', emitted)) :
    idx' = (if idx.any (fun r => decide (keyR r = (res.pathFolder, res.filename))) then
        idx.map (fun r => if keyR r = (res.pathFolder, res.filename) then
          ⟨res.pathFolder, res.filename, res.hash, res.filesize⟩ else r)
      else idx ++ [⟨res.pathFolder, res.filename, res.hash, res.filesize⟩]) ∧
    ((GetCountByFilesize idx' res.filesize = 2 ∧
        ∃ faulty rest, GetRecordsByHashAndFilesize idx' "" res.filesize = faulty :: rest ∧
          emitted = [promoteTask faulty]) ∨
      (GetCountByFilesize idx' res.filesize ≠ 2 ∧ emitted = [])) := by
  rw [collectStep] at h
  split at h
  · exact absurd h (by simp)
  · rename_i j hins
    rw [InsertRow] at hins
    split at hins
    · exact absurd hins (by simp)
    · have hj : (if idx.any (fun r => decide (keyR r = (res.pathFolder, res.filename))) then
          idx.map (fun r => if keyR r = (res.pathFolder, res.filename) then
            ⟨res.pathFolder, res.filename, res.hash, res.filesize⟩ else r)
        else idx ++ [⟨res.pathFolder, res.filename, res.hash, res.filesize⟩]) = j := by
        simpa using hins
      split at h
      · rename_i hc
        split at h
        · exact absurd h (by simp)
        · rename_i faulty rest hrec
          simp only [Option.some.injEq, Prod.mk.injEq] at h
          obtain ⟨rfl, rfl⟩ := h
          exact ⟨hj.symm, Or.inl ⟨hc, faulty, rest, hrec, rfl⟩⟩
      · rename_i hc
        simp only [Option.some.injEq, Prod.mk.injEq] at h
        obtain ⟨rfl, rfl⟩ := h
        exact ⟨hj.symm, Or.inr ⟨hc, rfl⟩⟩

/-- The collector-side invariant of the lazy-promotion algorithm, maintained by
every reachable state (from an empty index) of the pipeline over a traversal
output with distinct (folder, filename) keys and a hash oracle that never
produces the placeholder `""`. -/
structure PipeInv (files : List FileD) (idx : List FileRecord) (pending : List fileTask) :
    Prop where
  keysNodup : (idx.map keyR).Nodup
  phFirst : ∀ r ∈ idx, r.hash = "" →
    ∃ f0, firstOfSize files r.filesize = some f0 ∧ keyR r = keyF f0
  needPromo : ∀ s : Int, (∃ r ∈ idx, r.hash = "" ∧ r.filesize = s) →
    2 ≤ GetCountByFilesize idx s → ∃ t ∈ pending, t.isUpdate = true ∧ t.filesize = s
  pendInitKey : ∀ t ∈ pending, t.isUpdate = false → keyT t ∉ idx.map keyR
  pendInitFirst : ∀ t ∈ pending, t.isUpdate = false → t.realHash = false →
    ∃ f0, firstOfSize files t.filesize = some f0 ∧ keyT t = keyF f0
  initKeysNodup : ((pending.filter (fun t => !t.isUpdate)).map keyT).Nodup
  promoPh : ∀ t ∈ pending, t.isUpdate = true →
    t.realHash = true ∧ ∃ r ∈ idx, keyR r = keyT t ∧ r.hash = "" ∧ r.filesize = t.filesize
  promoUnique : ∀ s : Int,
    ((pending.filter (fun t => t.isUpdate && decide (t.filesize = s))).length ≤ 1)
  promoCount : ∀ t ∈ pending, t.isUpdate = true → 2 ≤ GetCountByFilesize idx t.filesize
  firstLow : ∀ (s : Int) (f0 : FileD), firstOfSize files s = some f0 →
    keyF f0 ∉ idx.map keyR → GetCountByFilesize idx s ≤ 1

/-- The invariant holds at the start state: empty index, `findFiles` tasks. -/
theorem PipeInv_start (files : List FileD) (hkeys : (files.map keyF).Nodup) :
    PipeInv files [] (findFiles files) := by
  have hupd : ∀ t ∈ findFiles files, t.isUpdate = false :=
    fun t ht => (findFiles_mem files t ht).1
  refine ⟨by simp, ?_, ?_, ?_, ?_, ?_, ?_, ?_, ?_, ?_⟩
  · intro r hr; exact absurd hr (by simp)
  · intro s ⟨r, hr, _⟩; exact absurd hr (by simp)
  · intro t _ _; simp
  · intro t ht _ hreal
    obtain ⟨-, f, hf, h1, h2, h3⟩ := findFiles_mem files t ht
    exact ⟨f, h2 ▸ h3 hreal, h1⟩
  · have hfilter : (findFiles files).filter (fun t => !t.isUpdate) = findFiles files :=
      List.filter_eq_self.mpr (fun t ht => by rw [hupd t ht]; rfl)
    rw [hfilter, findFiles_map_keyT]
    exact hkeys
  · intro t ht htu
    exact absurd htu (by rw [hupd t ht]; simp)
  · intro s
    have hfilter : (findFiles files).filter (fun t => t.isUpdate && decide (t.filesize = s)) = [] := by
      rw [List.filter_eq_nil_iff]
      intro t ht
      rw [hupd t ht]
      simp
    rw [hfilter]
    simp
  · intro t ht htu
    exact absurd htu (by rw [hupd t ht]; simp)
  · intro s f0 _ _
    simp [GetCountByFilesize]

theorem fileWorker_fields (hashOf : String → String → String) (t : fileTask) :
    (fileWorker hashOf t).pathFolder = t.pathFolder ∧
    (fileWorker hashOf t).filename = t.filename ∧
    (fileWorker hashOf t).filesize = t.filesize ∧
    (fileWorker hashOf t).isUpdate = t.isUpdate ∧
    (fileWorker hashOf t).hash = (if t.realHash then hashOf t.pathFolder t.filename else "") :=
  ⟨rfl, rfl, rfl, rfl, rfl⟩

/-- Preservation of the pipeline invariant when the collector processes the
result of an initial (traversal-produced, `IsUpdate = false`) task. -/
theorem PipeInv_step_initial (files : List FileD) (hashOf : String → String → String)
    (hne : ∀ d f, hashOf d f ≠ "") (idx : List FileRecord) (pending : List fileTask)
    (t : fileTask) (inv : PipeInv files idx pending) (htmem : t ∈ pending)
    (hupd : t.isUpdate = false) (idx' : List FileRecord) (emitted : List fileTask)
    (hstep : collectStep idx (fileWorker hashOf t) = some (idx', emitted)) :
    PipeInv files idx' (pending.erase t ++ emitted) := by
  obtain ⟨hidx', hbranch⟩ := collectStep_elim idx idx' (fileWorker hashOf t) emitted hstep
  simp only [fileWorker] at hidx' hbranch
  have hkeynotin : keyT t ∉ idx.map keyR := inv.pendInitKey t htmem hupd
  have hany : idx.any (fun r => decide (keyR r = (t.pathFolder, t.filename))) = false := by
    rw [List.any_eq_false]
    intro r hr habs
    exact hkeynotin (List.mem_map.mpr ⟨r, hr, of_decide_eq_true habs⟩)
  rw [hany] at hidx'
  simp only [Bool.false_eq_true, if_false] at hidx'
  set hres : String := if t.realHash then hashOf t.pathFolder t.filename else "" with hres_def
  set newRec : FileRecord := ⟨t.pathFolder, t.filename, hres, t.filesize⟩ with hnew_def
  have hresHash : hres = "" ↔ t.realHash = false := by
    cases hreal : t.realHash with
    | true => simp [hres_def, hreal, hne t.pathFolder t.filename]
    | false => simp [hres_def, hreal]
  have hidxA : idx' = idx ++ [newRec] := hidx'
  have hkeys' : idx'.map keyR = idx.map keyR ++ [keyT t] := by
    rw [hidxA, List.map_append]
    rfl
  have hcount : ∀ s : Int, GetCountByFilesize idx' s =
      GetCountByFilesize idx s + (if t.filesize = s then 1 else 0) := by
    intro s
    rw [hidxA]
    exact GetCountByFilesize_append idx newRec s
  have hmem' : ∀ r' : FileRecord, r' ∈ idx' ↔ r' ∈ idx ∨ r' = newRec := by
    intro r'
    rw [hidxA]
    simp
  have hphFirst' : ∀ r' ∈ idx', r'.hash = "" →
      ∃ f0, firstOfSize files r'.filesize = some f0 ∧ keyR r' = keyF f0 := by
    intro r' hr' hph
    rcases (hmem' r').mp hr' with h | h
    · exact inv.phFirst r' h hph
    · subst h
      have hreal : t.realHash = false := hresHash.mp hph
      obtain ⟨f0, hf0, hk0⟩ := inv.pendInitFirst t htmem hupd hreal
      exact ⟨f0, hf0, hk0⟩
  have hemitted_promo : ∀ t'' ∈ emitted, t''.isUpdate = true ∧ t''.realHash = true := by
    rcases hbranch with ⟨-, faulty, rest, -, hemit⟩ | ⟨-, hemit⟩
    · subst hemit
      intro t'' ht''
      rw [List.mem_singleton.mp ht'']
      exact ⟨rfl, rfl⟩
    · subst hemit
      intro t'' ht''
      exact absurd ht'' (by simp)
  have htcount : pending.count t ≤ 1 := by
    have hfn : (fun x : fileTask => !x.isUpdate) t = true := by simp [hupd]
    have h1 : (pending.filter (fun x => !x.isUpdate)).count t = pending.count t :=
      List.count_filter hfn
    have h2 : (pending.filter (fun x => !x.isUpdate)).Nodup :=
      List.Nodup.of_map keyT inv.initKeysNodup
    have h3 := List.nodup_iff_count_le_one.mp h2 t
    omega
  have htnotin_erase : t ∉ pending.erase t := not_mem_erase_of_count_le_one pending t htcount
  have herase_mem : ∀ t'' ∈ pending.erase t, t'' ∈ pending :=
    fun t'' h => List.mem_of_mem_erase h
  have hkey_ne : ∀ t'' ∈ pending.erase t, t''.isUpdate = false → keyT t'' ≠ keyT t := by
    intro t'' ht'' ht''u habs
    have hmemf : t'' ∈ pending.filter (fun x => !x.isUpdate) :=
      List.mem_filter.mpr ⟨herase_mem t'' ht'', by simp [ht''u]⟩
    have hmemtf : t ∈ pending.filter (fun x => !x.isUpdate) :=
      List.mem_filter.mpr ⟨htmem, by simp [hupd]⟩
    have heq : t'' = t := List.inj_on_of_nodup_map inv.initKeysNodup hmemf hmemtf habs
    rw [heq] at ht''
    exact htnotin_erase ht''
  refine ⟨?_, hphFirst', ?_, ?_, ?_, ?_, ?_, ?_, ?_, ?_⟩
  · -- keysNodup
    rw [hkeys']
    rw [List.nodup_append]
    exact ⟨inv.keysNodup, List.nodup_singleton _, List.disjoint_singleton.mpr hkeynotin⟩
  · -- needPromo
    intro s ⟨r', hr'm, hr'ph, hr's⟩ hcnt2
    by_cases hs : t.filesize = s
    · subst hs
      rcases hbranch with ⟨hc2, faulty, rest, hrec, hemit⟩ | ⟨hcne, hemit⟩
      · refine ⟨promoteTask faulty, List.mem_append_right _ ?_, rfl, ?_⟩
        · rw [hemit]; simp
        · have hfm : faulty ∈ GetRecordsByHashAndFilesize idx' "" t.filesize := by
            rw [hrec]; exact List.mem_cons_self _ _
          exact ((GetRecords_mem idx' "" t.filesize faulty).mp hfm).2.2
      · have hcount_s : GetCountByFilesize idx' t.filesize =
            GetCountByFilesize idx t.filesize + 1 := by
          rw [hcount t.filesize, if_pos rfl]
        have hidx_ge2 : 2 ≤ GetCountByFilesize idx t.filesize := by omega
        rcases (hmem' r').mp hr'm with hrin | hrnew
        · obtain ⟨t'', ht''m, ht''u, ht''s⟩ :=
            inv.needPromo t.filesize ⟨r', hrin, hr'ph, hr's⟩ hidx_ge2
          have htne : t'' ≠ t := by
            intro habs
            rw [habs, hupd] at ht''u
            exact absurd ht''u (by simp)
          exact ⟨t'', List.mem_append_left _ ((List.mem_erase_of_ne htne).mpr ht''m),
            ht''u, ht''s⟩
        · exfalso
          have hreal : t.realHash = false := by
            apply hresHash.mp
            rw [hrnew] at hr'ph
            exact hr'ph
          obtain ⟨f0, hf0, hk0⟩ := inv.pendInitFirst t htmem hupd hreal
          have hnotin : keyF f0 ∉ idx.map keyR := by
            rw [← hk0]
            exact hkeynotin
          have hle1 := inv.firstLow t.filesize f0 hf0 hnotin
          omega
    · have hcount_s : GetCountByFilesize idx' s = GetCountByFilesize idx s := by
        rw [hcount s, if_neg hs]
        omega
      have hrin : r' ∈ idx := by
        rcases (hmem' r').mp hr'm with h | h
        · exact h
        · exfalso
          rw [h] at hr's
          exact hs hr's
      obtain ⟨t'', ht''m, ht''u, ht''s⟩ :=
        inv.needPromo s ⟨r', hrin, hr'ph, hr's⟩ (by omega)
      have htne : t'' ≠ t := by
        intro habs
        rw [habs, hupd] at ht''u
        exact absurd ht''u (by simp)
      exact ⟨t'', List.mem_append_left _ ((List.mem_erase_of_ne htne).mpr ht''m),
        ht''u, ht''s⟩
  · -- pendInitKey
    intro t'' ht''m ht''u
    have ht''e : t'' ∈ pending.erase t := by
      rcases List.mem_append.mp ht''m with h | h
      · exact h
      · exact absurd ht''u (by rw [(hemitted_promo t'' h).1]; simp)
    have hpre : keyT t'' ∉ idx.map keyR := inv.pendInitKey t'' (herase_mem t'' ht''e) ht''u
    rw [hkeys']
    intro habs
    rcases List.mem_append.mp habs with h | h
    · exact hpre h
    · exact hkey_ne t'' ht''e ht''u (List.mem_singleton.mp h)
  · -- pendInitFirst
    intro t'' ht''m ht''u hreal
    have ht''e : t'' ∈ pending.erase t := by
      rcases List.mem_append.mp ht''m with h | h
      · exact h
      · exact absurd ht''u (by rw [(hemitted_promo t'' h).1]; simp)
    exact inv.pendInitFirst t'' (herase_mem t'' ht''e) ht''u hreal
  · -- initKeysNodup
    have hfe : (pending.erase t ++ emitted).filter (fun x => !x.isUpdate) =
        (pending.erase t).filter (fun x => !x.isUpdate) := by
      rw [List.filter_append]
      have : emitted.filter (fun x => !x.isUpdate) = [] := by
        rw [List.filter_eq_nil_iff]
        intro t'' ht''
        rw [(hemitted_promo t'' ht'').1]
        simp
      rw [this, List.append_nil]
    rw [hfe]
    exact List.Nodup.sublist
      (List.Sublist.map keyT (List.Sublist.filter _ (List.erase_sublist t pending)))
      inv.initKeysNodup
  · -- promoPh
    intro t'' ht''m ht''u
    rcases List.mem_append.mp ht''m with h | h
    · obtain ⟨hreal'', r'', hr''m, hr''k, hr''ph, hr''s⟩ :=
        inv.promoPh t'' (herase_mem t'' h) ht''u
      exact ⟨hreal'', r'', (hmem' r'').mpr (Or.inl hr''m), hr''k, hr''ph, hr''s⟩
    · rcases hbranch with ⟨hc2, faulty, rest, hrec, hemit⟩ | ⟨hcne, hemit⟩
      · rw [hemit] at h
        rw [List.mem_singleton.mp h]
        have hfm : faulty ∈ GetRecordsByHashAndFilesize idx' "" t.filesize := by
          rw [hrec]; exact List.mem_cons_self _ _
        obtain ⟨hfin, hfh, hfs⟩ := (GetRecords_mem idx' "" t.filesize faulty).mp hfm
        exact ⟨rfl, faulty, hfin, rfl, hfh, rfl⟩
      · rw [hemit] at h
        exact absurd h (by simp)
  · -- promoUnique
    intro s
    rw [List.filter_append, List.length_append]
    have herle : ((pending.erase t).filter
        (fun x => x.isUpdate && decide (x.filesize = s))).length ≤
        ((pending.filter (fun x => x.isUpdate && decide (x.filesize = s)))).length :=
      List.Sublist.length_le
        (List.Sublist.filter _ (List.erase_sublist t pending))
    rcases hbranch with ⟨hc2, faulty, rest, hrec, hemit⟩ | ⟨hcne, hemit⟩
    · subst hemit
      have hfm : faulty ∈ GetRecordsByHashAndFilesize idx' "" t.filesize := by
        rw [hrec]; exact List.mem_cons_self _ _
      obtain ⟨hfin, hfh, hfs⟩ := (GetRecords_mem idx' "" t.filesize faulty).mp hfm
      by_cases hs : t.filesize = s
      · subst hs
        have hprem : (pending.filter (fun x => x.isUpdate && decide (x.filesize = t.filesize))) = [] := by
          rw [List.filter_eq_nil_iff]
          intro t'' ht'' habs
          rw [Bool.and_eq_true] at habs
          have ht''size : t''.filesize = t.filesize := of_decide_eq_true habs.2
          have hcge2 := inv.promoCount t'' ht'' habs.1
          rw [ht''size] at hcge2
          have := hcount t.filesize
          rw [if_pos rfl] at this
          omega
        have herz : ((pending.erase t).filter
            (fun x => x.isUpdate && decide (x.filesize = t.filesize))).length = 0 := by
          rw [hprem] at herle
          simpa using herle
        have hsing : (([promoteTask faulty].filter
            (fun x => x.isUpdate && decide (x.filesize = t.filesize)))).length ≤ 1 := by
          have := List.length_filter_le (fun x : fileTask => x.isUpdate && decide (x.filesize = t.filesize)) [promoteTask faulty]
          simpa using this
        omega
      · have hz : ([promoteTask faulty].filter
            (fun x => x.isUpdate && decide (x.filesize = s))).length = 0 := by
          have : (promoteTask faulty).filesize = t.filesize := hfs
          simp only [List.filter, promoteTask]
          rw [show (decide ((⟨faulty.filename, faulty.directory, faulty.filesize, true, true⟩ :
            fileTask).filesize = s)) = false from decide_eq_false (by
              show ¬ faulty.filesize = s
              rw [hfs]
              exact hs)]
          simp
        have hle := inv.promoUnique s
        omega
    · subst hemit
      have hle := inv.promoUnique s
      simp only [List.filter_nil, List.length_nil]
      omega
  · -- promoCount
    intro t'' ht''m ht''u
    rcases List.mem_append.mp ht''m with h | h
    · have hpre := inv.promoCount t'' (herase_mem t'' h) ht''u
      have := hcount t''.filesize
      by_cases hs : t.filesize = t''.filesize
      · rw [if_pos hs] at this
        omega
      · rw [if_neg hs] at this
        omega
    · rcases hbranch with ⟨hc2, faulty, rest, hrec, hemit⟩ | ⟨hcne, hemit⟩
      · rw [hemit] at h
        rw [List.mem_singleton.mp h]
        have hfm : faulty ∈ GetRecordsByHashAndFilesize idx' "" t.filesize := by
          rw [hrec]; exact List.mem_cons_self _ _
        obtain ⟨hfin, hfh, hfs⟩ := (GetRecords_mem idx' "" t.filesize faulty).mp hfm
        show 2 ≤ GetCountByFilesize idx' (promoteTask faulty).filesize
        have : (promoteTask faulty).filesize = t.filesize := hfs
        rw [this, hc2]
      · rw [hemit] at h
        exact absurd h (by simp)
  · -- firstLow
    intro s f0 hf0 hnotin
    have hnotin_idx : keyF f0 ∉ idx.map keyR := by
      intro habs
      apply hnotin
      rw [hkeys']
      exact List.mem_append_left _ habs
    have hne_t : keyF f0 ≠ keyT t := by
      intro habs
      apply hnotin
      rw [hkeys']
      exact List.mem_append_right _ (by rw [habs]; simp)
    have hpre := inv.firstLow s f0 hf0 hnotin_idx
    by_cases hs : t.filesize = s
    · subst hs
      rcases hbranch with ⟨hc2, faulty, rest, hrec, hemit⟩ | ⟨hcne, hemit⟩
      · exfalso
        have hfm : faulty ∈ GetRecordsByHashAndFilesize idx' "" t.filesize := by
          rw [hrec]; exact List.mem_cons_self _ _
        obtain ⟨hfin, hfh, hfs⟩ := (GetRecords_mem idx' "" t.filesize faulty).mp hfm
        obtain ⟨f0', hf0', hk0'⟩ := hphFirst' faulty hfin hfh
        rw [hfs] at hf0'
        have hf00 : f0' = f0 := by
          rw [hf0'] at hf0
          exact (Option.some.injEq _ _ ▸ hf0).symm ▸ rfl
        apply hnotin
        rw [hkeys']
        have : keyF f0 ∈ idx'.map keyR := by
          rw [← hf00, ← hk0']
          exact List.mem_map.mpr ⟨faulty, hfin, rfl⟩
        rw [hkeys'] at this
        exact this
      · have := hcount t.filesize
        rw [if_pos rfl] at this
        omega
    · have := hcount s
      rw [if_neg hs] at this
      omega

/-- Preservation of the pipeline invariant when the collector processes the
result of a promotion (`IsUpdate = true`) task. -/
theorem PipeInv_step_promo (files : List FileD) (hashOf : String → String → String)
    (hne : ∀ d f, hashOf d f ≠ "") (idx : List FileRecord) (pending : List fileTask)
    (t : fileTask) (inv : PipeInv files idx pending) (htmem : t ∈ pending)
    (hupd : t.isUpdate = true) (idx' : List FileRecord) (emitted : List fileTask)
    (hstep : collectStep idx (fileWorker hashOf t) = some (idx', emitted)) :
    PipeInv files idx' (pending.erase t ++ emitted) := by
  obtain ⟨hidx', hbranch⟩ := collectStep_elim idx idx' (fileWorker hashOf t) emitted hstep
  simp only [fileWorker] at hidx' hbranch
  obtain ⟨hreal, r0, hr0m, hr0key, hr0ph, hr0size⟩ := inv.promoPh t htmem hupd
  have hkT : keyT t = (t.pathFolder, t.filename) := rfl
  have hr0key' : keyR r0 = (t.pathFolder, t.filename) := by rw [hr0key, hkT]
  rw [if_pos hreal] at hidx'
  have hany : idx.any (fun r => decide (keyR r = (t.pathFolder, t.filename))) = true :=
    List.any_eq_true.mpr ⟨r0, hr0m, decide_eq_true hr0key'⟩
  rw [hany] at hidx'
  simp only [if_true] at hidx'
  set g : FileRecord → FileRecord := fun r =>
    if keyR r = (t.pathFolder, t.filename) then
      ⟨t.pathFolder, t.filename, hashOf t.pathFolder t.filename, t.filesize⟩ else r
    with hg_def
  have hkeyinj := List.inj_on_of_nodup_map inv.keysNodup
  have hgkey : ∀ r ∈ idx, keyR (g r) = keyR r := by
    intro r hr
    by_cases hk : keyR r = (t.pathFolder, t.filename)
    · simp only [hg_def]
      rw [if_pos hk, hk]
      rfl
    · simp only [hg_def]
      rw [if_neg hk]
  have hgsize : ∀ r ∈ idx, (g r).filesize = r.filesize := by
    intro r hr
    by_cases hk : keyR r = (t.pathFolder, t.filename)
    · have hr0 : r = r0 := hkeyinj hr hr0m (by rw [hk, hr0key'])
      simp only [hg_def]
      rw [if_pos hk, hr0]
      show t.filesize = r0.filesize
      rw [hr0size]
    · simp only [hg_def]
      rw [if_neg hk]
  have hkeys' : idx'.map keyR = idx.map keyR := by
    rw [hidx', List.map_map]
    exact List.map_congr_left (fun r hr => hgkey r hr)
  have hcount' : ∀ s : Int, GetCountByFilesize idx' s = GetCountByFilesize idx s := by
    intro s
    rw [hidx']
    exact GetCountByFilesize_map_size_eq idx g hgsize s
  have hmemrev : ∀ r' ∈ idx', ∃ r ∈ idx, g r = r' := by
    intro r' h
    rw [hidx'] at h
    exact List.mem_map.mp h
  have hmemfwd : ∀ r ∈ idx, g r ∈ idx' := by
    intro r h
    rw [hidx']
    exact List.mem_map_of_mem g h
  have hph' : ∀ r' ∈ idx', r'.hash = "" →
      r' ∈ idx ∧ keyR r' ≠ (t.pathFolder, t.filename) := by
    intro r' hr' hph
    obtain ⟨r, hr, hgr⟩ := hmemrev r' hr'
    by_cases hk : keyR r = (t.pathFolder, t.filename)
    · exfalso
      have : g r = ⟨t.pathFolder, t.filename, hashOf t.pathFolder t.filename, t.filesize⟩ := by
        simp only [hg_def]
        rw [if_pos hk]
      rw [this] at hgr
      rw [← hgr] at hph
      exact hne t.pathFolder t.filename hph
    · have : g r = r := by
        simp only [hg_def]
        rw [if_neg hk]
      rw [this] at hgr
      subst hgr
      exact ⟨hr, hk⟩
  have hph_none : ∀ r' ∈ idx', ¬(r'.hash = "" ∧ r'.filesize = t.filesize) := by
    intro r' hr' ⟨hph, hsize⟩
    obtain ⟨hrin, hkne⟩ := hph' r' hr' hph
    obtain ⟨f0a, hf0a, hka⟩ := inv.phFirst r' hrin hph
    obtain ⟨f0b, hf0b, hkb⟩ := inv.phFirst r0 hr0m hr0ph
    rw [hsize] at hf0a
    rw [hr0size] at hf0b
    have hab : f0a = f0b := by
      rw [hf0a] at hf0b
      exact Option.some_injective _ hf0b
    apply hkne
    rw [hka, hab, ← hkb, hr0key']
  have hbB : GetCountByFilesize idx' t.filesize ≠ 2 ∧ emitted = [] := by
    rcases hbranch with ⟨hc2, faulty, rest, hrec, hemit⟩ | hB
    · exfalso
      have hfm : faulty ∈ GetRecordsByHashAndFilesize idx' "" t.filesize := by
        rw [hrec]
        exact List.mem_cons_self _ _
      obtain ⟨hfin, hfh, hfs⟩ := (GetRecords_mem idx' "" t.filesize faulty).mp hfm
      exact hph_none faulty hfin ⟨hfh, hfs⟩
    · exact hB
  obtain ⟨hcne, hemit⟩ := hbB
  subst hemit
  have htcount : pending.count t ≤ 1 := by
    have hfn : (fun x : fileTask => x.isUpdate && decide (x.filesize = t.filesize)) t = true := by
      simp [hupd]
    have h1 : (pending.filter
        (fun x => x.isUpdate && decide (x.filesize = t.filesize))).count t = pending.count t :=
      List.count_filter hfn
    have h2 := List.count_le_length t
      (pending.filter (fun x => x.isUpdate && decide (x.filesize = t.filesize)))
    have h3 := inv.promoUnique t.filesize
    omega
  have htnotin_erase : t ∉ pending.erase t := not_mem_erase_of_count_le_one pending t htcount
  have herase_mem : ∀ t'' ∈ pending.erase t, t'' ∈ pending :=
    fun t'' h => List.mem_of_mem_erase h
  have hmemE : ∀ t'' : fileTask, t'' ∈ pending.erase t ++ ([] : List fileTask) →
      t'' ∈ pending.erase t := by
    intro t'' h
    rcases List.mem_append.mp h with h | h
    · exact h
    · exact absurd h (by simp)
  refine ⟨?_, ?_, ?_, ?_, ?_, ?_, ?_, ?_, ?_, ?_⟩
  · rw [hkeys']
    exact inv.keysNodup
  · intro r' hr' hph
    exact inv.phFirst r' (hph' r' hr' hph).1 hph
  · intro s ⟨r', hr'm, hr'ph, hr's⟩ hcnt
    by_cases hs : s = t.filesize
    · subst hs
      exact absurd ⟨hr'ph, hr's⟩ (hph_none r' hr'm)
    · obtain ⟨hrin, hkne⟩ := hph' r' hr'm hr'ph
      have hcnt_idx : 2 ≤ GetCountByFilesize idx s := by
        have := hcount' s
        omega
      obtain ⟨t'', ht''m, ht''u, ht''s⟩ := inv.needPromo s ⟨r', hrin, hr'ph, hr's⟩ hcnt_idx
      have htne : t'' ≠ t := by
        intro habs
        rw [habs] at ht''s
        exact hs ht''s.symm
      exact ⟨t'', List.mem_append_left _ ((List.mem_erase_of_ne htne).mpr ht''m),
        ht''u, ht''s⟩
  · intro t'' ht''m ht''u
    rw [hkeys']
    exact inv.pendInitKey t'' (herase_mem t'' (hmemE t'' ht''m)) ht''u
  · intro t'' ht''m ht''u hr
    exact inv.pendInitFirst t'' (herase_mem t'' (hmemE t'' ht''m)) ht''u hr
  · rw [List.append_nil]
    exact List.Nodup.sublist
      (List.Sublist.map keyT (List.Sublist.filter _ (List.erase_sublist t pending)))
      inv.initKeysNodup
  · intro t'' ht''m ht''u
    have ht''e := hmemE t'' ht''m
    obtain ⟨hreal'', r'', hr''m, hr''k, hr''ph, hr''s⟩ :=
      inv.promoPh t'' (herase_mem t'' ht''e) ht''u
    have hk'' : keyR r'' ≠ (t.pathFolder, t.filename) := by
      intro habs
      have hrr : r'' = r0 := hkeyinj hr''m hr0m (by rw [habs, hr0key'])
      have hsize'' : t''.filesize = t.filesize := by
        rw [← hr''s, hrr, hr0size]
      have htne : t'' ≠ t := by
        intro habs2
        rw [habs2] at ht''e
        exact htnotin_erase ht''e
      have hmm : t'' ∈ pending.filter
          (fun x => x.isUpdate && decide (x.filesize = t.filesize)) :=
        List.mem_filter.mpr ⟨herase_mem t'' ht''e, by simp [ht''u, hsize'']⟩
      have hmt : t ∈ pending.filter
          (fun x => x.isUpdate && decide (x.filesize = t.filesize)) :=
        List.mem_filter.mpr ⟨htmem, by simp [hupd]⟩
      have h2le := two_mem_le_length _ t'' t hmm hmt htne
      have := inv.promoUnique t.filesize
      omega
    have hgr'' : g r'' = r'' := by
      simp only [hg_def]
      rw [if_neg hk'']
    refine ⟨hreal'', r'', ?_, hr''k, hr''ph, hr''s⟩
    rw [← hgr'']
    exact hmemfwd r'' hr''m
  · intro s
    rw [List.append_nil]
    have := List.Sublist.length_le
      (List.Sublist.filter (fun x : fileTask => x.isUpdate && decide (x.filesize = s))
        (List.erase_sublist t pending))
    have := inv.promoUnique s
    omega
  · intro t'' ht''m ht''u
    rw [hcount']
    exact inv.promoCount t'' (herase_mem t'' (hmemE t'' ht''m)) ht''u
  · intro s f0 hf0 hni
    rw [hkeys'] at hni
    rw [hcount']
    exact inv.firstLow s f0 hf0 hni

/-- The pipeline invariant holds in every reachable state of a run from an
empty index, for a traversal output with distinct (folder, filename) keys and a
hash oracle never producing the placeholder. -/
theorem PipeInv_reachable (files : List FileD) (hashOf : String → String → String)
    (hkeys : (files.map keyF).Nodup) (hne : ∀ d f, hashOf d f ≠ "")
    (idx : List FileRecord) (pending : List fileTask)
    (hreach : Reachable hashOf files [] idx pending) : PipeInv files idx pending := by
  induction hreach with
  | start => exact PipeInv_start files hkeys
  | step t hprev htmem hstep ih =>
    cases hupd : t.isUpdate with
    | false => exact PipeInv_step_initial files hashOf hne _ _ t ih htmem hupd _ _ hstep
    | true => exact PipeInv_step_promo files hashOf hne _ _ t ih htmem hupd _ _ hstep

/-- C2, amended to indexing runs that build the index from scratch (an empty
initial index): while the pipeline runs, at most one stored record carries the
placeholder digest for any given size, in every reachable state under every
worker-completion order; and when such a run completes (the pending work is
drained), every size counting at least 2 records has no placeholder record
left.  (A run over a pre-existing index breaks the completion clause, see the
second-run counterexample.) -/
theorem c2_placeholder_invariants (files : List FileD) (hashOf : String → String → String)
    (hkeys : (files.map keyF).Nodup) (hne : ∀ d f, hashOf d f ≠ "")
    (idx : List FileRecord) (pending : List fileTask)
    (hreach : Reachable hashOf files [] idx pending) :
    (∀ s : Int, (GetRecordsByHashAndFilesize idx "" s).length ≤ 1) ∧
    (pending = [] → ∀ s : Int, 2 ≤ GetCountByFilesize idx s →
      ∀ r ∈ idx, r.filesize = s → r.hash ≠ "") := by
  have inv := PipeInv_reachable files hashOf hkeys hne idx pending hreach
  constructor
  · intro s
    cases hq : GetRecordsByHashAndFilesize idx "" s with
    | nil => simp
    | cons r rest =>
      have hrmem : r ∈ GetRecordsByHashAndFilesize idx "" s := by
        rw [hq]
        exact List.mem_cons_self _ _
      obtain ⟨hrin, hrh, hrs⟩ := (GetRecords_mem idx "" s r).mp hrmem
      obtain ⟨f0, hf0, -⟩ := inv.phFirst r hrin hrh
      rw [hrs] at hf0
      have hnd : ((GetRecordsByHashAndFilesize idx "" s).map keyR).Nodup :=
        List.Nodup.sublist
          (List.Sublist.map keyR (List.filter_sublist idx)) inv.keysNodup
      have hall : ∀ k ∈ (GetRecordsByHashAndFilesize idx "" s).map keyR, k = keyF f0 := by
        intro k hk
        obtain ⟨r', hr'm, hr'k⟩ := List.mem_map.mp hk
        obtain ⟨hr'in, hr'h, hr's⟩ := (GetRecords_mem idx "" s r').mp hr'm
        obtain ⟨f0', hf0', hk0'⟩ := inv.phFirst r' hr'in hr'h
        rw [hr's] at hf0'
        have : f0' = f0 := by
          rw [hf0'] at hf0
          exact Option.some_injective _ hf0
        rw [← hr'k, hk0', this]
      have hlen := length_le_one_of_nodup_const _ (keyF f0) hnd hall
      rw [List.length_map] at hlen
      rw [← hq]
      exact hlen
  · intro hpend s hcnt r hrin hrs habs
    obtain ⟨t'', ht''m, -, -⟩ := inv.needPromo s ⟨r, hrin, habs, hrs⟩ hcnt
    rw [hpend] at ht''m
    exact absurd ht''m (by simp)

/-- Witness for C2: the completed three-file run of `c4`'s first pass — a
reachable state with empty pending work — has at most one placeholder record
of size 5 and no placeholder among its (three) records of size 5. -/
theorem c2_placeholder_invariants_witness :
    (GetRecordsByHashAndFilesize
      [⟨"/d", "a", "h", 5⟩, ⟨"/d", "b", "h", 5⟩, ⟨"/d", "c", "h", 5⟩] "" 5).length ≤ 1 ∧
    (⟨"/d", "a", "h", 5⟩ : FileRecord).hash ≠ "" := by
  have hrun : Reachable hConst files3 []
      [⟨"/d", "a", "h", 5⟩, ⟨"/d", "b", "h", 5⟩, ⟨"/d", "c", "h", 5⟩] [] :=
    reachable_of_runTasks hConst files3 [] 10 [] (findFiles files3) _
      Reachable.start (by decide)
  have hc : ∀ d f, hConst d f ≠ "" := by
    intro d f
    show ("h" : String) ≠ ""
    decide
  have h := c2_placeholder_invariants files3 hConst (by decide) hc _ _ hrun
  exact ⟨h.1 5, h.2 rfl 5 (by decide) ⟨"/d", "a", "h", 5⟩ (by decide) rfl⟩

/-- C2 counterexample to the claim as stated (over any indexing run): the
persistent index is never cleared, so a second indexing run starts from the
first run's index; over the unchanged three-file tree that second run
completes — the Collector drains the result stream — yet size 5 has 3 records
one of which still carries the placeholder digest `""`. -/
theorem c2_second_run_keeps_placeholder :
    Reachable hConst files3 []
      [⟨"/d", "a", "h", 5⟩, ⟨"/d", "b", "h", 5⟩, ⟨"/d", "c", "h", 5⟩] [] ∧
    Reachable hConst files3 [⟨"/d", "a", "h", 5⟩, ⟨"/d", "b", "h", 5⟩, ⟨"/d", "c", "h", 5⟩]
      [⟨"/d", "a", "", 5⟩, ⟨"/d", "b", "h", 5⟩, ⟨"/d", "c", "h", 5⟩] [] ∧
    2 ≤ GetCountByFilesize [⟨"/d", "a", "", 5⟩, ⟨"/d", "b", "h", 5⟩, ⟨"/d", "c", "h", 5⟩] 5 ∧
    (⟨"/d", "a", "", 5⟩ : FileRecord) ∈
      [⟨"/d", "a", "", 5⟩, ⟨"/d", "b", "h", 5⟩, ⟨"/d", "c", "h", 5⟩] ∧
    (⟨"/d", "a", "", 5⟩ : FileRecord).hash = "" := by
  refine ⟨?_, ?_, by decide, by decide, rfl⟩
  · exact reachable_of_runTasks hConst files3 [] 10 [] (findFiles files3) _
      Reachable.start (by decide)
  · exact reachable_of_runTasks hConst files3
      [⟨"/d", "a", "h", 5⟩, ⟨"/d", "b", "h", 5⟩, ⟨"/d", "c", "h", 5⟩] 10
      [⟨"/d", "a", "h", 5⟩, ⟨"/d", "b", "h", 5⟩, ⟨"/d", "c", "h", 5⟩]
      (findFiles files3) _ Reachable.start (by decide)

end Duplito
